import Mathlib

/-!
# Verification of the OpenMSUtils indexed spectral reader and XIC extraction engine

This file gives a shallow embedding, in Lean 4, of the core of the
OpenMSUtils repository: the mzML indexed reader
(`OpenMSUtils/SpectraUtils/MZMLUtils/MZMLReader.py`), the binary-array
codec and spectrum conversion (`OpenMSUtils/SpectraUtils/SpectraConverter.py`,
`OpenMSUtils/SpectraUtils/MSObject.py`), and the XIC extraction engine
(`OpenMSUtils/SpectraUtils/XICSExtractor.py`).

Python floats are modelled as exact rationals (`ℚ`) wherever the code only
compares, adds, multiplies and divides them; packed IEEE-754 values are
modelled by their bit patterns (natural numbers below `2^width`), so that
byte-level round trips are stated exactly.  Python exceptions are modelled
with `Except`/`Option`; Python `int` division-by-zero raises, which is
modelled explicitly.  Python dictionaries that are only read through key
lookup are modelled as functions `ℤ → Option ℕ`.
-/

set_option maxHeartbeats 1000000

namespace OpenMSUtils

/-- Python exceptions that the modelled code paths can raise. -/
inductive PyError where
  | valueError
  | zeroDivisionError
  | typeError
  | nameError
  | structError
  | zlibError
  deriving DecidableEq, Repr

/-- Python `int(x)` on a float: truncation toward zero. -/
def pyInt (q : ℚ) : ℤ :=
  if 0 ≤ q then ⌊q⌋ else -⌊-q⌋

/-- Truncation toward zero is monotone. -/
theorem pyInt_mono {q r : ℚ} (h : q ≤ r) : pyInt q ≤ pyInt r := by
  unfold pyInt
  by_cases hq : 0 ≤ q
  · have hr : 0 ≤ r := le_trans hq h
    simp only [hq, hr, if_true]
    exact Int.floor_le_floor h
  · by_cases hr : 0 ≤ r
    · simp only [hq, hr, if_true, if_false]
      have h1 : -⌊-q⌋ ≤ 0 := by
        have : (0 : ℚ) ≤ -q := by linarith [not_le.mp hq]
        have := Int.le_floor.mpr (by exact_mod_cast this : ((0 : ℤ) : ℚ) ≤ -q)
        omega
      have h2 : (0 : ℤ) ≤ ⌊r⌋ := by
        exact Int.le_floor.mpr (by exact_mod_cast hr)
      omega
    · simp only [hq, hr, if_false]
      have : -r ≤ -q := by linarith
      have := Int.floor_le_floor this
      omega

/-- `pyInt` is a lower bound: `(pyInt q : ℚ) ≤ q` for `0 ≤ q`,
and in general `pyInt q ≤ q + 1`.  We only need the nonnegative direction
through monotonicity, plus this bridging fact. -/
theorem pyInt_le_self {q : ℚ} (h : 0 ≤ q) : (pyInt q : ℚ) ≤ q := by
  unfold pyInt
  simp only [h, if_true]
  exact Int.floor_le q

/-! ## IsotopeLadderCalculator: `XICSExtractor._calculate_isotope_mzs`

```python
def _calculate_isotope_mzs(self, mz, charge, num_isotopes=4):
    isotope_mzs = [mz]
    for i in range(1, num_isotopes):
        isotope_mz = mz + (i * 1.00335483507) / charge
        isotope_mzs.append(isotope_mz)
    return isotope_mzs
```

`charge` is the Python int from `PolymerInfo.charge`; dividing by a zero
charge raises `ZeroDivisionError` as soon as the loop body runs
(that is, when `num_isotopes ≥ 2`). -/

/-- The inter-isotope spacing constant `1.00335483507` Da, as an exact rational. -/
def neutronMass : ℚ := 100335483507 / 100000000000

/-- `XICSExtractor._calculate_isotope_mzs`. -/
def calcIsotopeMzs (mz : ℚ) (charge : ℤ) (numIsotopes : ℕ) : Except PyError (List ℚ) :=
  if charge = 0 ∧ 2 ≤ numIsotopes then
    .error .zeroDivisionError
  else
    .ok (mz :: (List.range (numIsotopes - 1)).map (fun (i : ℕ) =>
      mz + (((i : ℚ) + 1) * neutronMass) / (charge : ℚ)))

/-- C2 counterexample: for a negative charge the code divides by the signed
charge, not by `|charge|`.  At `mz = 500`, `charge = -2`, `count = 2` the
second ladder value is `500 - neutronMass/2`, not the claimed
`500 + neutronMass/|−2| · 1 = 500 + neutronMass/2`. -/
theorem calcIsotopeMzs_negative_charge_counterexample :
    calcIsotopeMzs 500 (-2) 2 = .ok [500, 500 - 1 * neutronMass / 2] ∧
    calcIsotopeMzs 500 (-2) 2 ≠ .ok [500, 500 + 1 * neutronMass / 2] := by
  constructor
  · show (if ((-2 : ℤ) = 0 ∧ 2 ≤ 2) then _ else _) = _
    rw [if_neg (by simp)]
    refine congrArg Except.ok ?_
    simp [List.range_succ, neutronMass]
    norm_num
  · intro h
    rw [calcIsotopeMzs, if_neg (by simp)] at h
    have h2 := congrArg (fun l => l.getD 1 0) (Except.ok.inj h)
    simp [List.range_succ, neutronMass] at h2
    norm_num at h2

/-- C2 (amended): for every nonzero charge (positive or negative) and every
count `n`, the isotope ladder has `max 1 n` values and its `k`-th value is
`mz + k·1.00335483507/charge` — the code divides by the *signed* charge, so
the spec formula with `|charge|` holds exactly when the charge is positive.
For `charge = 2` the k-th spacing is exactly `k·1.00335483507/2` (hence
within `1e-9`). -/
theorem calcIsotopeMzs_spec (mz : ℚ) (charge : ℤ) (n : ℕ) (h : charge ≠ 0) :
    calcIsotopeMzs mz charge n =
      .ok ((List.range (max 1 n)).map (fun (k : ℕ) =>
        mz + (k : ℚ) * neutronMass / (charge : ℚ))) := by
  rw [calcIsotopeMzs, if_neg (by simp [h])]
  refine congrArg Except.ok ?_
  have hmax : max 1 n = (n - 1) + 1 := by omega
  rw [hmax, List.range_succ_eq_map, List.map_cons, List.map_map]
  congr 1
  · simp
  · refine List.map_congr_left (fun i _ => ?_)
    simp only [Function.comp_apply]
    push_cast
    ring

/-- Witness for `calcIsotopeMzs_spec` at `mz = 500`, `charge = 2`, `n = 3`. -/
theorem calcIsotopeMzs_spec_witness :
    calcIsotopeMzs 500 2 3 =
      .ok ((List.range (max 1 3)).map (fun (k : ℕ) =>
        (500 : ℚ) + (k : ℚ) * neutronMass / ((2 : ℤ) : ℚ))) :=
  calcIsotopeMzs_spec 500 2 3 (by decide)

/-! ## The spectrum store: `MSObject`

`MSObject.py` stores, per spectrum, the MS level, the scan block
(retention time), the precursor block (isolation window) and the peak list
`[(mz, intensity), ...]`.  Only the fields read by the XIC extractor are
modelled. -/

/-- The fields of `MSObject` read by `XICSExtractor`. -/
structure MSObj where
  level : ℕ
  retentionTime : ℚ
  isolationWindow : ℚ × ℚ
  peaks : List (ℚ × ℚ)
  deriving DecidableEq, Repr

/-! ## `XICSExtractor._extract_xic_from_ms1`

```python
for ms1 in self.ms1_objects:
    if not (rt_start <= ms1.retention_time <= rt_stop): continue
    closest_peak_idx = None; min_delta = float('inf')
    for i, peak_mz in enumerate([item[0] for item in ms1.peaks]):
        if mz_min <= peak_mz <= mz_max:
            delta = abs(peak_mz - mz)
            if delta < min_delta:
                min_delta = delta; closest_peak_idx = i
    if closest_peak_idx is not None:
        ... append (rt, intensity); mz_delta_ppm_sum += abs(ppm_error); count += 1
    else:
        ... append (rt, 0)
avg_ppm_error = mz_delta_ppm_sum / count if count > 0 else 0
```
-/

/-- The inner nearest-peak loop: scans the peak list in order, keeping the
peak (with its delta) whose `|peak_mz − mz|` is strictly smaller than the
best so far, among peaks inside `[mzMin, mzMax]`.  `none` models the
`float('inf')` initial state. -/
def findClosestPeak (mz mzMin mzMax : ℚ) :
    List (ℚ × ℚ) → Option ((ℚ × ℚ) × ℚ) → Option ((ℚ × ℚ) × ℚ)
  | [], best => best
  | p :: rest, best =>
    if mzMin ≤ p.1 ∧ p.1 ≤ mzMax then
      match best with
      | none => findClosestPeak mz mzMin mzMax rest (some (p, |p.1 - mz|))
      | some (q, dq) =>
        if |p.1 - mz| < dq then findClosestPeak mz mzMin mzMax rest (some (p, |p.1 - mz|))
        else findClosestPeak mz mzMin mzMax rest (some (q, dq))
    else findClosestPeak mz mzMin mzMax rest best

/-- One `XICResult` record (`rt_array`, `intensity_array`, target `mz`,
mean absolute `ppm_error`, `ion_type`, `charge`). -/
structure XICResult where
  rtArray : List ℚ
  intensityArray : List ℚ
  mz : ℚ
  ppmError : ℚ
  ionType : String := ""
  charge : ℤ := 0
  deriving DecidableEq, Repr

/-- The MS1 scan loop of `_extract_xic_from_ms1`, returning
`(rt_values, intensity_values, mz_delta_ppm_sum, count)`. -/
def xicScanSamples (mz mzMin mzMax rtStart rtStop : ℚ) :
    List MSObj → (List ℚ × List ℚ × ℚ × ℕ)
  | [] => ([], [], 0, 0)
  | m :: rest =>
    let r := xicScanSamples mz mzMin mzMax rtStart rtStop rest
    if rtStart ≤ m.retentionTime ∧ m.retentionTime ≤ rtStop then
      match findClosestPeak mz mzMin mzMax m.peaks none with
      | some (p, _) =>
        (m.retentionTime :: r.1, p.2 :: r.2.1,
         r.2.2.1 + |(p.1 - mz) / mz * 1000000|, r.2.2.2 + 1)
      | none => (m.retentionTime :: r.1, (0 : ℚ) :: r.2.1, r.2.2.1, r.2.2.2)
    else r

/-- `XICSExtractor._extract_xic_from_ms1`. -/
def extractXicFromMs1 (ms1 : List MSObj) (mz rtStart rtStop ppmTolerance : ℚ) : XICResult :=
  let mzMin := mz * (1 - ppmTolerance / 1000000)
  let mzMax := mz * (1 + ppmTolerance / 1000000)
  let r := xicScanSamples mz mzMin mzMax rtStart rtStop ms1
  { rtArray := r.1, intensityArray := r.2.1, mz := mz,
    ppmError := if 0 < r.2.2.2 then r.2.2.1 / (r.2.2.2 : ℚ) else 0 }

/-- The MS1 records whose retention time lies in `[rtStart, rtStop]`
(both bounds inclusive), in store order. -/
def inWindowMs1 (ms1 : List MSObj) (rtStart rtStop : ℚ) : List MSObj :=
  ms1.filter fun m => decide (rtStart ≤ m.retentionTime ∧ m.retentionTime ≤ rtStop)

/-- The matched samples: the in-window records for which the nearest-peak
search succeeds, with the selected peak and its delta. -/
def matchedMs1 (ms1 : List MSObj) (mz mzMin mzMax rtStart rtStop : ℚ) :
    List ((ℚ × ℚ) × ℚ) :=
  (inWindowMs1 ms1 rtStart rtStop).filterMap
    (fun m => findClosestPeak mz mzMin mzMax m.peaks none)

/-- Key lemma: the scan loop produces exactly the declarative samples. -/
theorem xicScanSamples_eq (mz mzMin mzMax rtStart rtStop : ℚ) (ms1 : List MSObj) :
    xicScanSamples mz mzMin mzMax rtStart rtStop ms1 =
      ((inWindowMs1 ms1 rtStart rtStop).map (·.retentionTime),
       (inWindowMs1 ms1 rtStart rtStop).map (fun m =>
         match findClosestPeak mz mzMin mzMax m.peaks none with
         | some (p, _) => p.2
         | none => 0),
       ((matchedMs1 ms1 mz mzMin mzMax rtStart rtStop).map
         (fun pd => |(pd.1.1 - mz) / mz * 1000000|)).sum,
       (matchedMs1 ms1 mz mzMin mzMax rtStart rtStop).length) := by
  induction ms1 with
  | nil => simp [xicScanSamples, inWindowMs1, matchedMs1]
  | cons m rest ih =>
    by_cases hw : rtStart ≤ m.retentionTime ∧ m.retentionTime ≤ rtStop
    · cases hfc : findClosestPeak mz mzMin mzMax m.peaks none with
      | none =>
        simp only [xicScanSamples, ih, hw, if_true, hfc]
        simp [inWindowMs1, matchedMs1, hw, hfc]
      | some pd =>
        simp only [xicScanSamples, ih, hw, if_true, hfc]
        simp [inWindowMs1, matchedMs1, hw.1, hw.2, hfc, add_comm]
    · simp only [xicScanSamples, ih, hw, if_false]
      simp [inWindowMs1, matchedMs1, hw]

/-- C3: for every store and target m/z, `_extract_xic_from_ms1` produces
exactly one `(rt, intensity)` sample per MS1 spectrum with retention time in
`[rt_start, rt_stop]` inclusive (in store order), with intensity `0` when no
peak lies in the ppm window; the `rt` and intensity arrays both have length
equal to the number of in-window MS1 spectra; and the reported ppm error is
the mean of `|ppm error|` over matched samples only, `0` if none matched. -/
theorem extractXicFromMs1_spec (ms1 : List MSObj) (mz rtStart rtStop ppm : ℚ) :
    (extractXicFromMs1 ms1 mz rtStart rtStop ppm).rtArray =
      (inWindowMs1 ms1 rtStart rtStop).map (·.retentionTime) ∧
    (extractXicFromMs1 ms1 mz rtStart rtStop ppm).intensityArray =
      (inWindowMs1 ms1 rtStart rtStop).map (fun m =>
        match findClosestPeak mz (mz * (1 - ppm / 1000000)) (mz * (1 + ppm / 1000000))
            m.peaks none with
        | some (p, _) => p.2
        | none => 0) ∧
    (extractXicFromMs1 ms1 mz rtStart rtStop ppm).rtArray.length =
      (inWindowMs1 ms1 rtStart rtStop).length ∧
    (extractXicFromMs1 ms1 mz rtStart rtStop ppm).intensityArray.length =
      (inWindowMs1 ms1 rtStart rtStop).length ∧
    (extractXicFromMs1 ms1 mz rtStart rtStop ppm).ppmError =
      (if 0 < (matchedMs1 ms1 mz (mz * (1 - ppm / 1000000)) (mz * (1 + ppm / 1000000))
            rtStart rtStop).length then
        ((matchedMs1 ms1 mz (mz * (1 - ppm / 1000000)) (mz * (1 + ppm / 1000000))
            rtStart rtStop).map (fun pd => |(pd.1.1 - mz) / mz * 1000000|)).sum /
        ((matchedMs1 ms1 mz (mz * (1 - ppm / 1000000)) (mz * (1 + ppm / 1000000))
            rtStart rtStop).length : ℚ)
      else 0) := by
  have h := xicScanSamples_eq mz (mz * (1 - ppm / 1000000)) (mz * (1 + ppm / 1000000))
    rtStart rtStop ms1
  refine ⟨?_, ?_, ?_, ?_, ?_⟩ <;>
    simp [extractXicFromMs1, h]

/-! ## The MS2 second-bucket index: `XICSExtractor.load_mzml` lines 84–91

```python
self.ms2_objects_indices = {}
for index, ms2 in enumerate(self.ms2_objects):
    second = int(ms2.retention_time)
    if second not in self.ms2_objects_indices:
        self.ms2_objects_indices[second] = index
    else:
        if ms2.retention_time < self.ms2_objects[self.ms2_objects_indices[second]].retention_time:
            self.ms2_objects_indices[second] = index
```

The dictionary is only read by key lookup, so it is modelled as a function
`ℤ → Option ℕ`. -/

instance : Inhabited MSObj := ⟨⟨1, 0, (0, 0), []⟩⟩

/-- Dictionary store `d[s] = i`. -/
def updIdx (idx : ℤ → Option ℕ) (s : ℤ) (i : ℕ) : ℤ → Option ℕ :=
  fun t => if t = s then some i else idx t

/-- The enumeration loop of the bucket-index builder.  `ms2full` is
`self.ms2_objects` (indexed reads `self.ms2_objects[j]` are modelled with
`getD`; the stored indices are always in range), `i` the enumeration
counter, `l` the remaining suffix. -/
def buildMs2IndicesGo (ms2full : List MSObj) (idx : ℤ → Option ℕ) (i : ℕ) :
    List MSObj → (ℤ → Option ℕ)
  | [] => idx
  | m :: rest =>
    let s := pyInt m.retentionTime
    let idx' :=
      match idx s with
      | none => updIdx idx s i
      | some j =>
        if m.retentionTime < (ms2full.getD j default).retentionTime then updIdx idx s i
        else idx
    buildMs2IndicesGo ms2full idx' (i + 1) rest

/-- `self.ms2_objects_indices` as built by `load_mzml`. -/
def buildMs2Indices (ms2 : List MSObj) : ℤ → Option ℕ :=
  buildMs2IndicesGo ms2 (fun _ => none) 0 ms2

/-! ## `XICSExtractor._filter_ms2_by_rt_and_precursor`

```python
start_second = int(rt_start)
while start_second not in self.ms2_objects_indices:
    start_second -= 1
start_index = self.ms2_objects_indices[start_second]
for ms2 in self.ms2_objects[start_index:]:
    if not (rt_start <= ms2.retention_time <= rt_stop): continue
    if not (ms2.precursor.isolation_window[0] <= precursor_mz <= ms2.precursor.isolation_window[1]): continue
    if (ms2.retention_time > rt_stop): break
    filtered_ms2.append(ms2)
```

The `while` loop has no lower bound: it is modelled with explicit fuel,
`none` meaning that no amount of fuel suffices (non-termination). -/

/-- The bucket-key decrement loop, with fuel. -/
def bucketSearch (idx : ℤ → Option ℕ) : ℕ → ℤ → Option ℤ
  | 0, s => if (idx s).isSome then some s else none
  | fuel + 1, s => if (idx s).isSome then some s else bucketSearch idx fuel (s - 1)

/-- The forward scan over `self.ms2_objects[start_index:]`, including the
(unreachable) `break` after the two `continue` guards. -/
def filterMs2Loop (rtStart rtStop pmz : ℚ) : List MSObj → List MSObj
  | [] => []
  | m :: rest =>
    if ¬(rtStart ≤ m.retentionTime ∧ m.retentionTime ≤ rtStop) then
      filterMs2Loop rtStart rtStop pmz rest
    else if ¬(m.isolationWindow.1 ≤ pmz ∧ pmz ≤ m.isolationWindow.2) then
      filterMs2Loop rtStart rtStop pmz rest
    else if rtStop < m.retentionTime then
      []
    else m :: filterMs2Loop rtStart rtStop pmz rest

/-- `XICSExtractor._filter_ms2_by_rt_and_precursor`; `none` models the
diverging bucket search. -/
def filterMs2ByRtAndPrecursor (ms2 : List MSObj) (idx : ℤ → Option ℕ) (fuel : ℕ)
    (rtStart rtStop pmz : ℚ) : Option (List MSObj) :=
  match bucketSearch idx fuel (pyInt rtStart) with
  | none => none
  | some s =>
    match idx s with
    | none => none
    | some i => some (filterMs2Loop rtStart rtStop pmz (ms2.drop i))

/-- The eligible-set characterization used by the claim: all ms2 records
with retention time in the window and isolation window containing the
precursor m/z, in store order (an unrestricted scan with the two filters). -/
def ms2Eligible (ms2 : List MSObj) (rtStart rtStop pmz : ℚ) : List MSObj :=
  ms2.filter fun m => decide ((rtStart ≤ m.retentionTime ∧ m.retentionTime ≤ rtStop) ∧
    (m.isolationWindow.1 ≤ pmz ∧ pmz ≤ m.isolationWindow.2))

/-- The forward scan is a plain filter: the `break` guard can never fire
because the retention-time `continue` guard has already ensured
`rt ≤ rt_stop`. -/
theorem filterMs2Loop_eq_filter (rtStart rtStop pmz : ℚ) (l : List MSObj) :
    filterMs2Loop rtStart rtStop pmz l =
      l.filter (fun m => decide ((rtStart ≤ m.retentionTime ∧ m.retentionTime ≤ rtStop) ∧
        (m.isolationWindow.1 ≤ pmz ∧ pmz ≤ m.isolationWindow.2))) := by
  induction l with
  | nil => rfl
  | cons m rest ih =>
    by_cases h1 : rtStart ≤ m.retentionTime ∧ m.retentionTime ≤ rtStop
    · by_cases h2 : m.isolationWindow.1 ≤ pmz ∧ pmz ≤ m.isolationWindow.2
      · have h3 : ¬ rtStop < m.retentionTime := not_lt.mpr h1.2
        simp [filterMs2Loop, h1, h2, h3, ih]
      · simp [filterMs2Loop, h1, h2, ih]
    · simp [filterMs2Loop, h1, ih]

/-- The truncated second of the record at position `j` of the store. -/
def keyAt (ms2 : List MSObj) (j : ℕ) : ℤ :=
  pyInt ((ms2.getD j default).retentionTime)

/-- Invariant of the bucket-index build: every stored entry points at the
first record of its bucket, and every processed record's bucket is stored. -/
def IdxInv (ms2 : List MSObj) (idx : ℤ → Option ℕ) (n : ℕ) : Prop :=
  (∀ s j, idx s = some j → j < n ∧ keyAt ms2 j = s ∧ ∀ j' < j, keyAt ms2 j' ≠ s) ∧
  (∀ j < n, (idx (keyAt ms2 j)).isSome)

theorem buildMs2IndicesGo_inv (ms2 : List MSObj)
    (hsort : ∀ a b, a < b → b < ms2.length →
      (ms2.getD a default).retentionTime ≤ (ms2.getD b default).retentionTime) :
    ∀ (l : List MSObj) (i : ℕ) (idx : ℤ → Option ℕ),
      ms2.drop i = l → IdxInv ms2 idx i →
      IdxInv ms2 (buildMs2IndicesGo ms2 idx i l) (i + l.length) := by
  intro l
  induction l with
  | nil => intro i idx _ hinv; simpa [buildMs2IndicesGo] using hinv
  | cons m rest ih =>
    intro i idx hdrop hinv
    have hhead : ms2[i]? = some m := by
      have := congrArg List.head? hdrop
      rwa [List.head?_eq_getElem?, List.getElem?_drop, Nat.add_zero] at this
    obtain ⟨hilen, hget⟩ := List.getElem?_eq_some_iff.mp hhead
    have hmkey : keyAt ms2 i = pyInt m.retentionTime := by
      rw [keyAt, List.getD_eq_getElem?_getD, List.getElem?_eq_getElem hilen, hget]
      rfl
    have hdrop' : ms2.drop (i + 1) = rest := by
      have := congrArg List.tail hdrop
      rwa [List.tail_drop] at this
    have hlen : i + (m :: rest).length = (i + 1) + rest.length := by
      simp; omega
    rw [buildMs2IndicesGo, hlen]
    cases hlook : idx (pyInt m.retentionTime) with
    | none =>
      show IdxInv ms2
        (buildMs2IndicesGo ms2 (updIdx idx (pyInt m.retentionTime) i) (i + 1) rest)
        ((i + 1) + rest.length)
      refine ih (i + 1) _ hdrop' ?_
      constructor
      · intro s j hj
        by_cases hs : s = pyInt m.retentionTime
        · subst hs
          have hji : j = i := by
            have := hj
            simp [updIdx] at this
            omega
          subst hji
          refine ⟨by omega, hmkey, ?_⟩
          intro j' hj' hkey
          have := hinv.2 j' (by omega)
          rw [hkey, hlook] at this
          simp at this
        · have hj' : idx s = some j := by
            simpa [updIdx, hs] using hj
          obtain ⟨h1, h2, h3⟩ := hinv.1 s j hj'
          exact ⟨by omega, h2, h3⟩
      · intro j hj
        by_cases hji : j = i
        · subst hji
          simp [updIdx, hmkey]
        · have := hinv.2 j (by omega)
          by_cases hk : keyAt ms2 j = pyInt m.retentionTime
          · simp [updIdx, hk]
          · simpa [updIdx, hk] using this
    | some j =>
      obtain ⟨hjlt, hjkey, _⟩ := hinv.1 _ j hlook
      have hle : (ms2.getD j default).retentionTime ≤ m.retentionTime := by
        have h := hsort j i hjlt hilen
        have hgd : ms2.getD i default = m := by
          rw [List.getD_eq_getElem?_getD, List.getElem?_eq_getElem hilen, hget]
          rfl
        rwa [hgd] at h
      have hcond : ¬ m.retentionTime < (ms2.getD j default).retentionTime := not_lt.mpr hle
      show IdxInv ms2
        (buildMs2IndicesGo ms2
          (if m.retentionTime < (ms2.getD j default).retentionTime then
            updIdx idx (pyInt m.retentionTime) i
          else idx) (i + 1) rest)
        ((i + 1) + rest.length)
      rw [if_neg hcond]
      refine ih (i + 1) idx hdrop' ?_
      constructor
      · intro s j' hj'
        obtain ⟨h1, h2, h3⟩ := hinv.1 s j' hj'
        exact ⟨by omega, h2, h3⟩
      · intro j' hj'
        by_cases hji : j' = i
        · subst hji
          rw [hmkey, hlook]
          rfl
        · exact hinv.2 j' (by omega)

/-- The built index satisfies the first-occurrence invariant for a
retention-time-sorted store. -/
theorem buildMs2Indices_inv (ms2 : List MSObj)
    (hsort : List.Sorted (fun a b : MSObj => a.retentionTime ≤ b.retentionTime) ms2) :
    IdxInv ms2 (buildMs2Indices ms2) ms2.length := by
  have hsort' : ∀ a b, a < b → b < ms2.length →
      (ms2.getD a default).retentionTime ≤ (ms2.getD b default).retentionTime := by
    intro a b hab hb
    have ha : a < ms2.length := lt_trans hab hb
    rw [List.getD_eq_getElem?_getD, List.getD_eq_getElem?_getD,
      List.getElem?_eq_getElem ha, List.getElem?_eq_getElem hb]
    simp only [Option.getD_some]
    exact List.pairwise_iff_getElem.mp hsort a b ha hb hab
  have h0 : IdxInv ms2 (fun _ => none) 0 := by
    constructor
    · intro s j hj; cases hj
    · intro j hj; omega
  have := buildMs2IndicesGo_inv ms2 hsort' ms2 0 (fun _ => none) (by simp) h0
  simpa [buildMs2Indices] using this

/-- If the decrement loop returns `s'`, then `s' ≤ s` and bucket `s'`
is populated. -/
theorem bucketSearch_le (idx : ℤ → Option ℕ) :
    ∀ (fuel : ℕ) (s s' : ℤ), bucketSearch idx fuel s = some s' →
      s' ≤ s ∧ (idx s').isSome := by
  intro fuel
  induction fuel with
  | zero =>
    intro s s' h
    rw [bucketSearch] at h
    by_cases hs : (idx s).isSome
    · rw [if_pos hs] at h
      cases h
      exact ⟨le_refl _, hs⟩
    · rw [if_neg hs] at h; cases h
  | succ fuel ih =>
    intro s s' h
    rw [bucketSearch] at h
    by_cases hs : (idx s).isSome
    · rw [if_pos hs] at h
      cases h
      exact ⟨le_refl _, hs⟩
    · rw [if_neg hs] at h
      obtain ⟨h1, h2⟩ := ih (s - 1) s' h
      exact ⟨by omega, h2⟩

/-- C4: for a retention-time-sorted store, fragment-XIC eligibility
filtering via the coarse second-bucket index (bucket-decrement start lookup
plus forward scan) produces exactly the records an unrestricted scan over
all ms2 records with the same two filters (retention time in
`[rt_start, rt_stop]`, isolation window containing the precursor m/z) would
produce — provided the bucket-decrement search terminates (cf. the C10
divergence theorem for the case where it does not). -/
theorem filterMs2ByRtAndPrecursor_eq_eligible (ms2 : List MSObj) (fuel : ℕ)
    (rtStart rtStop pmz : ℚ)
    (hsort : List.Sorted (fun a b : MSObj => a.retentionTime ≤ b.retentionTime) ms2)
    (hterm : (bucketSearch (buildMs2Indices ms2) fuel (pyInt rtStart)).isSome) :
    filterMs2ByRtAndPrecursor ms2 (buildMs2Indices ms2) fuel rtStart rtStop pmz =
      some (ms2Eligible ms2 rtStart rtStop pmz) := by
  obtain ⟨s', hs'⟩ := Option.isSome_iff_exists.mp hterm
  obtain ⟨hle, hsome⟩ := bucketSearch_le (buildMs2Indices ms2) fuel (pyInt rtStart) s' hs'
  obtain ⟨istart, histart⟩ := Option.isSome_iff_exists.mp hsome
  obtain ⟨hstartlt, hstartkey, hfirst⟩ := (buildMs2Indices_inv ms2 hsort).1 s' istart histart
  rw [filterMs2ByRtAndPrecursor, hs']
  show (match buildMs2Indices ms2 s' with
    | none => none
    | some i => some (filterMs2Loop rtStart rtStop pmz (ms2.drop i))) = _
  rw [histart]
  show some (filterMs2Loop rtStart rtStop pmz (ms2.drop istart)) = _
  rw [filterMs2Loop_eq_filter]
  refine congrArg some ?_
  have hsplit := List.take_append_drop istart ms2
  have hpre : (ms2.take istart).filter
      (fun m => decide ((rtStart ≤ m.retentionTime ∧ m.retentionTime ≤ rtStop) ∧
        (m.isolationWindow.1 ≤ pmz ∧ pmz ≤ m.isolationWindow.2))) = [] := by
    rw [List.filter_eq_nil_iff]
    intro a ha
    obtain ⟨j, hjlen, hja⟩ := List.mem_iff_getElem.mp ha
    have hjlt : j < istart := by
      have := hjlen
      rw [List.length_take] at this
      omega
    have hjlen' : j < ms2.length := by omega
    have hja' : ms2[j] = a := by
      rw [← hja, List.getElem_take]
    have hkeyja : keyAt ms2 j = pyInt a.retentionTime := by
      rw [keyAt, List.getD_eq_getElem?_getD, List.getElem?_eq_getElem hjlen', hja']
      rfl
    have hne : keyAt ms2 j ≠ s' := hfirst j hjlt
    have hmono : keyAt ms2 j ≤ s' := by
      rw [hkeyja, ← hstartkey, keyAt]
      apply pyInt_mono
      have := List.pairwise_iff_getElem.mp hsort j istart hjlen' hstartlt hjlt
      rw [List.getD_eq_getElem?_getD, List.getElem?_eq_getElem hstartlt]
      simpa [hja'] using this
    have hlt : pyInt a.retentionTime < s' := by
      rw [← hkeyja]
      omega
    have hfail : ¬ rtStart ≤ a.retentionTime := by
      intro hcon
      have := pyInt_mono hcon
      omega
    simp [hfail]
  calc (ms2.drop istart).filter _
      = (ms2.take istart).filter _ ++ (ms2.drop istart).filter
          (fun m => decide ((rtStart ≤ m.retentionTime ∧ m.retentionTime ≤ rtStop) ∧
            (m.isolationWindow.1 ≤ pmz ∧ pmz ≤ m.isolationWindow.2))) := by
        rw [hpre]; rfl
    _ = ms2Eligible ms2 rtStart rtStop pmz := by
        rw [← List.filter_append, hsplit, ms2Eligible]

/-- Witness for `filterMs2ByRtAndPrecursor_eq_eligible`: a concrete sorted
two-record store, window `[10, 11]`, precursor m/z 500. -/
theorem filterMs2ByRtAndPrecursor_eq_eligible_witness :
    filterMs2ByRtAndPrecursor
      [⟨2, 10, (499, 501), [(200, 7)]⟩, ⟨2, 12, (600, 601), []⟩]
      (buildMs2Indices [⟨2, 10, (499, 501), [(200, 7)]⟩, ⟨2, 12, (600, 601), []⟩])
      20 10 11 500 =
      some (ms2Eligible [⟨2, 10, (499, 501), [(200, 7)]⟩, ⟨2, 12, (600, 601), []⟩]
        10 11 500) :=
  filterMs2ByRtAndPrecursor_eq_eligible _ 20 10 11 500
    (by
      refine List.sorted_cons.mpr ⟨?_, List.sorted_singleton _⟩
      intro b hb
      simp at hb
      rw [hb]
      norm_num)
    (by
      have h10 : pyInt 10 = 10 := by simp [pyInt]
      have h12 : pyInt 12 = 12 := by simp [pyInt]
      simp [bucketSearch, buildMs2Indices, buildMs2IndicesGo, updIdx, h10, h12])

/-! ## `XICSExtractor.extract_precursor_xics` / `extract_fragment_xics` -/

/-- `FragmentIon` (dataclass). -/
structure FragmentIonM where
  ionType : String
  charge : ℤ
  mz : ℚ
  deriving DecidableEq, Repr

/-- `PolymerInfo` (dataclass). -/
structure PolymerInfoM where
  sequence : String
  modifiedSequence : String
  charge : ℤ
  mz : ℚ
  rt : ℚ
  rtStart : ℚ
  rtStop : ℚ
  fragmentIons : List FragmentIonM
  deriving DecidableEq, Repr

/-- `XICSExtractor._filter_ms2_by_precursor`. -/
def filterMs2ByPrecursor (ms2 : List MSObj) (pmz : ℚ) : List MSObj :=
  ms2.filter fun m => decide (m.isolationWindow.1 ≤ pmz ∧ pmz ≤ m.isolationWindow.2)

/-- `XICSExtractor._extract_xic_from_ms2`.  Note the Python truthiness test
`filtered_ms2 if filtered_ms2 else self._filter_ms2_by_precursor(...)`:
an *empty* filtered list falls back to a precursor-only filter over the
whole store. -/
def extractXicFromMs2 (ms2All : List MSObj) (mz pmz rtStart rtStop ppmTolerance : ℚ)
    (filteredMs2 : List MSObj) : XICResult :=
  let mzMin := mz * (1 - ppmTolerance / 1000000)
  let mzMax := mz * (1 + ppmTolerance / 1000000)
  let ms2List := if filteredMs2 ≠ [] then filteredMs2 else filterMs2ByPrecursor ms2All pmz
  let r := xicScanSamples mz mzMin mzMax rtStart rtStop ms2List
  { rtArray := r.1, intensityArray := r.2.1, mz := mz,
    ppmError := if 0 < r.2.2.2 then r.2.2.1 / (r.2.2.2 : ℚ) else 0 }

/-- `XICSExtractor.extract_precursor_xics`.  An empty `ms1_objects` store
raises `ValueError`; a zero precursor charge propagates the
`ZeroDivisionError` from `_calculate_isotope_mzs`. -/
def extractPrecursorXics (ms1 : List MSObj) (ppmTolerance : ℚ) (precursor : PolymerInfoM)
    (numIsotopes : ℕ) : Except PyError (List XICResult) :=
  if ms1 = [] then .error .valueError
  else
    match calcIsotopeMzs precursor.mz precursor.charge numIsotopes with
    | .error e => .error e
    | .ok isotopeMzs =>
      .ok (isotopeMzs.enum.map (fun im =>
        { extractXicFromMs1 ms1 im.2 precursor.rtStart precursor.rtStop ppmTolerance with
            ionType := "[M+" ++ toString im.1 ++ "]", charge := precursor.charge }))

/-- `XICSExtractor.extract_fragment_xics`.  The outer `none` models
divergence of the bucket-decrement loop inside
`_filter_ms2_by_rt_and_precursor`. -/
def extractFragmentXics (ms2 : List MSObj) (idx : ℤ → Option ℕ) (fuel : ℕ)
    (ppmTolerance : ℚ) (peptideInfo : PolymerInfoM) :
    Option (Except PyError (List XICResult)) :=
  if ms2 = [] then some (.error .valueError)
  else
    match filterMs2ByRtAndPrecursor ms2 idx fuel peptideInfo.rtStart peptideInfo.rtStop
        peptideInfo.mz with
    | none => none
    | some filtered =>
      some (.ok (peptideInfo.fragmentIons.map (fun frag =>
        { extractXicFromMs2 ms2 frag.mz peptideInfo.mz peptideInfo.rtStart
            peptideInfo.rtStop ppmTolerance filtered with
          ionType := frag.ionType, charge := frag.charge })))

/-- If every populated bucket key is above `t`, no amount of fuel lets the
decrement loop starting at or below `t` find a bucket. -/
theorem bucketSearch_no_fuel (idx : ℤ → Option ℕ) (t : ℤ)
    (h : ∀ s, (idx s).isSome → t < s) :
    ∀ (fuel : ℕ) (s : ℤ), s ≤ t → bucketSearch idx fuel s = none := by
  intro fuel
  induction fuel with
  | zero =>
    intro s hs
    rw [bucketSearch, if_neg]
    intro hsome
    exact absurd (h s hsome) (by omega)
  | succ fuel ih =>
    intro s hs
    rw [bucketSearch, if_neg]
    · exact ih (s - 1) (by omega)
    · intro hsome
      exact absurd (h s hsome) (by omega)

/-- C10: if the truncated-integer second of `rt_start` is smaller than every
populated bucket key of the MS2 second-bucket index, fragment XIC extraction
does not terminate — the bucket-key decrement loop never finds a populated
bucket, for any fuel bound. -/
theorem extractFragmentXics_diverges (ms2 : List MSObj) (ppmTolerance : ℚ)
    (pre : PolymerInfoM) (h2 : ms2 ≠ [])
    (h : ∀ s, ((buildMs2Indices ms2) s).isSome → pyInt pre.rtStart < s) :
    ∀ fuel, extractFragmentXics ms2 (buildMs2Indices ms2) fuel ppmTolerance pre = none := by
  intro fuel
  have hbs : bucketSearch (buildMs2Indices ms2) fuel (pyInt pre.rtStart) = none :=
    bucketSearch_no_fuel _ _ h fuel _ le_rfl
  have hfil : filterMs2ByRtAndPrecursor ms2 (buildMs2Indices ms2) fuel
      pre.rtStart pre.rtStop pre.mz = none := by
    rw [filterMs2ByRtAndPrecursor, hbs]
  rw [extractFragmentXics, if_neg h2, hfil]

/-- Witness for `extractFragmentXics_diverges`: the store has one MS2 record
at retention time 10 s, so the only populated bucket key is 10; with
`rt_start = 5` the decrement loop starts at 5 and never terminates (here:
fails for fuel 1000). -/
theorem extractFragmentXics_diverges_witness :
    extractFragmentXics [⟨2, 10, (499, 501), []⟩]
      (buildMs2Indices [⟨2, 10, (499, 501), []⟩]) 1000 10
      ⟨"S", "S", 2, 500, 6, 5, 8, [⟨"y1", 1, 300⟩]⟩ = none := by
  have h10 : pyInt 10 = 10 := by simp [pyInt]
  have h5 : pyInt 5 = 5 := by simp [pyInt]
  refine extractFragmentXics_diverges _ 10 _ (by simp) ?_ 1000
  intro s hs
  show pyInt (5 : ℚ) < s
  rw [h5]
  by_cases hc : s = 10
  · omega
  · rw [buildMs2Indices, buildMs2IndicesGo] at hs
    simp only [h10] at hs
    rw [buildMs2IndicesGo] at hs
    simp [updIdx, hc] at hs

/-- With an empty retention-time window every record fails the window guard,
so the scan loop yields no samples. -/
theorem xicScanSamples_empty_window (mz mzMin mzMax rtStart rtStop : ℚ)
    (h : rtStop < rtStart) (l : List MSObj) :
    xicScanSamples mz mzMin mzMax rtStart rtStop l = ([], [], 0, 0) := by
  induction l with
  | nil => rfl
  | cons m rest ih =>
    have hw : ¬(rtStart ≤ m.retentionTime ∧ m.retentionTime ≤ rtStop) := by
      rintro ⟨ha, hb⟩
      linarith
    simp only [xicScanSamples, ih, hw, if_false]

/-- C8 counterexample: with a loaded store and a target charge of 0,
precursor XIC extraction raises (`ZeroDivisionError` from dividing by the
charge), rather than returning an empty result set. -/
theorem extractPrecursorXics_zero_charge_counterexample :
    extractPrecursorXics [⟨1, 10, (0, 0), [(500, 100)]⟩] 10
      ⟨"S", "S", 0, 500, 10, 9, 12, []⟩ 4 = .error .zeroDivisionError := by
  rw [extractPrecursorXics, if_neg (by simp)]
  have hc : calcIsotopeMzs (500 : ℚ) 0 4 = .error .zeroDivisionError := by
    rw [calcIsotopeMzs, if_pos ⟨rfl, by omega⟩]
  rw [show (⟨"S", "S", 0, 500, 10, 9, 12, []⟩ : PolymerInfoM).mz = (500 : ℚ) from rfl,
    show (⟨"S", "S", 0, 500, 10, 9, 12, []⟩ : PolymerInfoM).charge = (0 : ℤ) from rfl, hc]

/-- C8 (amended): with a loaded store, an empty RT window
(`rt_start > rt_stop`) yields, for both extraction methods, results whose
sample arrays are all empty (and ppm error 0), without raising — for the
fragment method provided the bucket-decrement search terminates.  A target
charge of 0, however, raises a division-by-zero error in precursor
extraction (whenever at least two isotopes are requested) instead of
returning an empty result set. -/
theorem extractionEmptyWindow_spec
    (ms1 ms2 : List MSObj) (ppmTolerance : ℚ) (pre : PolymerInfoM) (n fuel : ℕ)
    (h1 : ms1 ≠ []) (h2 : ms2 ≠ [])
    (hempty : pre.rtStop < pre.rtStart)
    (hterm : (bucketSearch (buildMs2Indices ms2) fuel (pyInt pre.rtStart)).isSome) :
    (pre.charge = 0 ∧ 2 ≤ n →
      extractPrecursorXics ms1 ppmTolerance pre n = .error .zeroDivisionError) ∧
    (pre.charge ≠ 0 → ∃ rs, extractPrecursorXics ms1 ppmTolerance pre n = .ok rs ∧
      rs.length = max 1 n ∧
      ∀ r ∈ rs, r.rtArray = [] ∧ r.intensityArray = [] ∧ r.ppmError = 0) ∧
    (∃ rs, extractFragmentXics ms2 (buildMs2Indices ms2) fuel ppmTolerance pre =
        some (.ok rs) ∧
      rs.length = pre.fragmentIons.length ∧
      ∀ r ∈ rs, r.rtArray = [] ∧ r.intensityArray = [] ∧ r.ppmError = 0) := by
  refine ⟨?_, ?_, ?_⟩
  · rintro ⟨hc, hn⟩
    rw [extractPrecursorXics, if_neg h1, calcIsotopeMzs, if_pos ⟨hc, hn⟩]
  · intro hc
    rw [extractPrecursorXics, if_neg h1, calcIsotopeMzs, if_neg (by simp [hc])]
    refine ⟨_, rfl, ?_, ?_⟩
    · simp only [List.enum_length, List.length_map, List.length_cons, List.length_range]
      omega
    · intro r hr
      obtain ⟨im, _, him⟩ := List.mem_map.mp hr
      have hx := xicScanSamples_empty_window im.2
        (im.2 * (1 - ppmTolerance / 1000000)) (im.2 * (1 + ppmTolerance / 1000000))
        pre.rtStart pre.rtStop hempty ms1
      rw [← him]
      simp [extractXicFromMs1, hx]
  · obtain ⟨s, hs⟩ := Option.isSome_iff_exists.mp hterm
    obtain ⟨hle, hsome⟩ := bucketSearch_le (buildMs2Indices ms2) fuel (pyInt pre.rtStart) s hs
    obtain ⟨i, hi⟩ := Option.isSome_iff_exists.mp hsome
    have hloop : filterMs2Loop pre.rtStart pre.rtStop pre.mz (ms2.drop i) = [] := by
      rw [filterMs2Loop_eq_filter, List.filter_eq_nil_iff]
      intro a _
      simp only [decide_eq_true_eq, not_and]
      rintro ⟨ha, hb⟩
      linarith
    have hfil : filterMs2ByRtAndPrecursor ms2 (buildMs2Indices ms2) fuel
        pre.rtStart pre.rtStop pre.mz = some [] := by
      rw [filterMs2ByRtAndPrecursor, hs]
      show (match buildMs2Indices ms2 s with
        | none => none
        | some i => some (filterMs2Loop pre.rtStart pre.rtStop pre.mz (ms2.drop i))) = _
      rw [hi]
      show some (filterMs2Loop pre.rtStart pre.rtStop pre.mz (ms2.drop i)) = _
      rw [hloop]
    rw [extractFragmentXics, if_neg h2, hfil]
    refine ⟨_, rfl, by simp, ?_⟩
    intro r hr
    obtain ⟨frag, _, hfrag⟩ := List.mem_map.mp hr
    have hx := xicScanSamples_empty_window frag.mz
      (frag.mz * (1 - ppmTolerance / 1000000)) (frag.mz * (1 + ppmTolerance / 1000000))
      pre.rtStart pre.rtStop hempty (filterMs2ByPrecursor ms2 pre.mz)
    rw [← hfrag]
    simp [extractXicFromMs2, hx]

/-- Witness for `extractionEmptyWindow_spec`: one MS1 and one MS2 record,
target with empty RT window `[12, 11]`. -/
theorem extractionEmptyWindow_spec_witness :
    ((⟨"S", "S", 2, 500, 10, 12, 11, [⟨"y1", 1, 300⟩]⟩ : PolymerInfoM).charge = 0 ∧ 2 ≤ 4 →
      extractPrecursorXics [⟨1, 10, (0, 0), [(500, 100)]⟩] 10
        ⟨"S", "S", 2, 500, 10, 12, 11, [⟨"y1", 1, 300⟩]⟩ 4 = .error .zeroDivisionError) ∧
    ((⟨"S", "S", 2, 500, 10, 12, 11, [⟨"y1", 1, 300⟩]⟩ : PolymerInfoM).charge ≠ 0 →
      ∃ rs, extractPrecursorXics [⟨1, 10, (0, 0), [(500, 100)]⟩] 10
        ⟨"S", "S", 2, 500, 10, 12, 11, [⟨"y1", 1, 300⟩]⟩ 4 = .ok rs ∧
      rs.length = max 1 4 ∧
      ∀ r ∈ rs, r.rtArray = [] ∧ r.intensityArray = [] ∧ r.ppmError = 0) ∧
    (∃ rs, extractFragmentXics [⟨2, 10, (499, 501), [(200, 5)]⟩]
        (buildMs2Indices [⟨2, 10, (499, 501), [(200, 5)]⟩]) 20 10
        ⟨"S", "S", 2, 500, 10, 12, 11, [⟨"y1", 1, 300⟩]⟩ =
        some (.ok rs) ∧
      rs.length = (⟨"S", "S", 2, 500, 10, 12, 11,
        [⟨"y1", 1, 300⟩]⟩ : PolymerInfoM).fragmentIons.length ∧
      ∀ r ∈ rs, r.rtArray = [] ∧ r.intensityArray = [] ∧ r.ppmError = 0) :=
  extractionEmptyWindow_spec
    [⟨1, 10, (0, 0), [(500, 100)]⟩] [⟨2, 10, (499, 501), [(200, 5)]⟩]
    10 ⟨"S", "S", 2, 500, 10, 12, 11, [⟨"y1", 1, 300⟩]⟩ 4 20
    (by simp) (by simp) (by norm_num)
    (by
      have h10 : pyInt 10 = 10 := by simp [pyInt]
      have h12 : pyInt 12 = 12 := by simp [pyInt]
      simp [bucketSearch, buildMs2Indices, buildMs2IndicesGo, updIdx, h10, h12])

/-! ## BinaryArrayCodec: `struct.pack`/`struct.unpack`

`SpectraConverter` packs IEEE-754 floats little-endian
(`struct.pack('d'*n, ...)`) and unpacks with
`struct.unpack('f'|'d' * (len(data)//width), data)`.  Values are modelled
by their bit patterns (naturals below `2^(8·width)`), bytes by naturals
below 256, making bit-level round trips exact statements. -/

/-- One value's bit pattern as `w` little-endian bytes. -/
def toLEBytes (w : ℕ) (v : ℕ) : List ℕ :=
  (List.range w).map (fun (k : ℕ) => v / 256 ^ k % 256)

/-- Little-endian bytes back to the bit pattern. -/
def fromLEBytes : List ℕ → ℕ
  | [] => 0
  | b :: rest => b + 256 * fromLEBytes rest

/-- `struct.pack('<'+fmt*len(xs))`: concatenate the little-endian encodings. -/
def packValues (w : ℕ) (xs : List ℕ) : List ℕ :=
  xs.flatMap (toLEBytes w)

/-- The chunking loop underlying `struct.unpack` (a well-formed call
consumes exactly `w` bytes per value). -/
def unpackGo (w : ℕ) (data : List ℕ) : List ℕ :=
  if hwd : w = 0 ∨ data = [] then []
  else fromLEBytes (data.take w) :: unpackGo w (data.drop w)
  termination_by data.length
  decreasing_by
    push_neg at hwd
    rcases data with _ | ⟨a, l⟩
    · exact absurd rfl hwd.2
    · simp only [List.length_drop, List.length_cons]
      omega

/-- `struct.unpack(fmt, data)` with `fmt` of `len(data) // w` elements of
width `w`: `struct.error` unless the buffer length is exactly
`(len(data) // w) * w`, i.e. a multiple of `w`. -/
def structUnpack (w : ℕ) (data : List ℕ) : Except PyError (List ℕ) :=
  if data.length / w * w = data.length ∧ 0 < w then
    .ok (unpackGo w data)
  else .error .structError

theorem toLEBytes_succ (w v : ℕ) :
    toLEBytes (w + 1) v = v % 256 :: toLEBytes w (v / 256) := by
  rw [toLEBytes, List.range_succ_eq_map, List.map_cons, List.map_map]
  congr 1
  · simp
  · rw [toLEBytes]
    refine List.map_congr_left (fun k _ => ?_)
    simp only [Function.comp_apply]
    rw [pow_succ', ← Nat.div_div_eq_div_mul]

theorem toLEBytes_length (w v : ℕ) : (toLEBytes w v).length = w := by
  simp [toLEBytes]

theorem toLEBytes_lt (w v : ℕ) : ∀ b ∈ toLEBytes w v, b < 256 := by
  intro b hb
  rw [toLEBytes] at hb
  obtain ⟨k, _, hk⟩ := List.mem_map.mp hb
  omega

theorem fromLEBytes_toLEBytes (w : ℕ) :
    ∀ v, v < 256 ^ w → fromLEBytes (toLEBytes w v) = v := by
  induction w with
  | zero =>
    intro v hv
    interval_cases v
    rfl
  | succ w ih =>
    intro v hv
    rw [toLEBytes_succ, fromLEBytes, ih (v / 256) (by
      rw [pow_succ] at hv
      exact Nat.div_lt_of_lt_mul (by omega))]
    omega

theorem unpackGo_nil (w : ℕ) : unpackGo w [] = [] := by
  rw [unpackGo]
  simp

theorem unpackGo_append (w : ℕ) (hw : 0 < w) (v : ℕ) (hv : v < 256 ^ w)
    (rest : List ℕ) :
    unpackGo w (toLEBytes w v ++ rest) = v :: unpackGo w rest := by
  have hlen : (toLEBytes w v).length = w := toLEBytes_length w v
  have hne : toLEBytes w v ++ rest ≠ [] := by
    intro hcon
    have := congrArg List.length hcon
    simp [hlen] at this
    omega
  rw [unpackGo, dif_neg (by
    push_neg
    exact ⟨by omega, hne⟩)]
  congr 1
  · rw [List.take_left' hlen, fromLEBytes_toLEBytes w v hv]
  · rw [List.drop_left' hlen]

theorem packValues_cons (w v : ℕ) (xs : List ℕ) :
    packValues w (v :: xs) = toLEBytes w v ++ packValues w xs := by
  simp [packValues]

theorem packValues_length (w : ℕ) (xs : List ℕ) :
    (packValues w xs).length = xs.length * w := by
  induction xs with
  | nil => simp [packValues]
  | cons v xs ih =>
    rw [packValues_cons, List.length_append, toLEBytes_length, ih, List.length_cons]
    ring

theorem packValues_lt (w : ℕ) (xs : List ℕ) : ∀ b ∈ packValues w xs, b < 256 := by
  induction xs with
  | nil => simp [packValues]
  | cons v xs ih =>
    intro b hb
    rw [packValues_cons, List.mem_append] at hb
    rcases hb with hb | hb
    · exact toLEBytes_lt w v b hb
    · exact ih b hb

/-- `struct.unpack(struct.pack(xs)) = xs` at the bit level. -/
theorem structUnpack_packValues (w : ℕ) (hw : 0 < w) (xs : List ℕ)
    (hx : ∀ v ∈ xs, v < 256 ^ w) :
    structUnpack w (packValues w xs) = .ok xs := by
  rw [structUnpack, if_pos ⟨by rw [packValues_length]; rw [Nat.mul_div_cancel _ hw], hw⟩]
  refine congrArg Except.ok ?_
  induction xs with
  | nil => simp [packValues, unpackGo_nil]
  | cons v rest ih =>
    rw [packValues_cons,
      unpackGo_append w hw v (hx v (List.mem_cons_self v rest)) (packValues w rest)]
    rw [ih (fun u hu => hx u (List.mem_cons_of_mem v hu))]

/-! ## BinaryArrayCodec: `base64.b64encode` / `base64.b64decode`

Standard base64 with `=` padding, over byte values (`ℕ` below 256) and
ASCII character codes.  (Python's `b64decode` by default *discards*
characters outside the alphabet before decoding; that lenient mode is not
modelled — every theorem below feeds the decoder text produced by the
encoder, which is all-alphabet.) -/

/-- The 64-character standard alphabet `A–Z a–z 0–9 + /`, as ASCII codes. -/
def b64Alphabet : List ℕ :=
  [65, 66, 67, 68, 69, 70, 71, 72, 73, 74, 75, 76, 77, 78, 79, 80, 81, 82,
   83, 84, 85, 86, 87, 88, 89, 90,
   97, 98, 99, 100, 101, 102, 103, 104, 105, 106, 107, 108, 109, 110, 111,
   112, 113, 114, 115, 116, 117, 118, 119, 120, 121, 122,
   48, 49, 50, 51, 52, 53, 54, 55, 56, 57, 43, 47]

/-- Sextet to character code. -/
def b64Char (k : ℕ) : ℕ := b64Alphabet.getD k 0

/-- Scan for a character code's sextet index. -/
def b64IndexGo (c : ℕ) : List ℕ → ℕ → Option ℕ
  | [], _ => none
  | a :: rest, i => if a = c then some i else b64IndexGo c rest (i + 1)

/-- Character code to sextet. -/
def b64Inv (c : ℕ) : Option ℕ := b64IndexGo c b64Alphabet 0

/-- `base64.b64encode`: 3 bytes → 4 characters, with `=` (code 61) padding. -/
def b64EncodeGo : List ℕ → List ℕ
  | [] => []
  | [a] => [b64Char (a / 4), b64Char (a % 4 * 16), 61, 61]
  | [a, b] => [b64Char (a / 4), b64Char (a % 4 * 16 + b / 16), b64Char (b % 16 * 4), 61]
  | a :: b :: c :: rest =>
    b64Char (a / 4) :: b64Char (a % 4 * 16 + b / 16) ::
    b64Char (b % 16 * 4 + c / 64) :: b64Char (c % 64) :: b64EncodeGo rest

/-- `base64.b64decode` (strict shape): 4 characters → 3/2/1 bytes, padding
only in a final chunk. -/
def b64DecodeGo : List ℕ → Option (List ℕ)
  | [] => some []
  | c0 :: c1 :: c2 :: c3 :: rest =>
    match b64Inv c0, b64Inv c1 with
    | some s0, some s1 =>
      if c2 = 61 ∧ c3 = 61 then
        if rest = [] then some [s0 * 4 + s1 / 16] else none
      else if c3 = 61 then
        match b64Inv c2 with
        | some s2 =>
          if rest = [] then some [s0 * 4 + s1 / 16, s1 % 16 * 16 + s2 / 4] else none
        | none => none
      else
        match b64Inv c2, b64Inv c3 with
        | some s2, some s3 =>
          match b64DecodeGo rest with
          | some ds =>
            some ((s0 * 4 + s1 / 16) :: (s1 % 16 * 16 + s2 / 4) :: (s2 % 4 * 64 + s3) :: ds)
          | none => none
        | _, _ => none
    | _, _ => none
  | _ => none

theorem b64Inv_b64Char : ∀ k < 64, b64Inv (b64Char k) = some k := by decide

theorem b64Char_ne_pad : ∀ k < 64, b64Char k ≠ 61 := by decide

/-- Base64 round trip on byte lists. -/
theorem b64DecodeGo_b64EncodeGo :
    ∀ bytes : List ℕ, (∀ b ∈ bytes, b < 256) → b64DecodeGo (b64EncodeGo bytes) = some bytes := by
  intro bytes
  induction bytes using b64EncodeGo.induct with
  | case1 =>
    intro _
    rfl
  | case2 a =>
    intro hb
    have ha : a < 256 := hb a (by simp)
    have h0 : a / 4 < 64 := by omega
    have h1 : a % 4 * 16 < 64 := by omega
    rw [b64EncodeGo, b64DecodeGo]
    rw [b64Inv_b64Char _ h0, b64Inv_b64Char _ h1]
    simp only [if_pos (And.intro rfl rfl), if_pos rfl]
    refine congrArg some ?_
    refine congrArg (fun x => [x]) ?_
    omega
  | case3 a b =>
    intro hb
    have ha : a < 256 := hb a (by simp)
    have hbb : b < 256 := hb b (by simp)
    have h0 : a / 4 < 64 := by omega
    have h1 : a % 4 * 16 + b / 16 < 64 := by omega
    have h2 : b % 16 * 4 < 64 := by omega
    have hpad := b64Char_ne_pad _ h2
    rw [b64EncodeGo, b64DecodeGo]
    simp only [b64Inv_b64Char _ h0, b64Inv_b64Char _ h1, b64Inv_b64Char _ h2, hpad,
      false_and, if_false, if_true, Option.some.injEq, List.cons.injEq, and_true]
    omega
  | case4 a b c rest ih =>
    intro hb
    have ha : a < 256 := hb a (by simp)
    have hbb : b < 256 := hb b (by simp)
    have hc : c < 256 := hb c (by simp)
    have h0 : a / 4 < 64 := by omega
    have h1 : a % 4 * 16 + b / 16 < 64 := by omega
    have h2 : b % 16 * 4 + c / 64 < 64 := by omega
    have h3 : c % 64 < 64 := by omega
    have hpad2 := b64Char_ne_pad _ h2
    have hpad3 := b64Char_ne_pad _ h3
    have hih := ih (fun x hx => hb x (by simp [hx]))
    rw [b64EncodeGo, b64DecodeGo]
    simp only [b64Inv_b64Char _ h0, b64Inv_b64Char _ h1, b64Inv_b64Char _ h2,
      b64Inv_b64Char _ h3, hpad2, hpad3, false_and, if_false, if_true, hih,
      Option.some.injEq, List.cons.injEq, and_true]
    omega

/-- Every byte produced by the decoder is in fact a byte (below 256). -/
theorem b64Inv_lt (c s : ℕ) (h : b64Inv c = some s) : s < 64 := by
  have : ∀ (l : List ℕ) (i s : ℕ), b64IndexGo c l i = some s → s < i + l.length := by
    intro l
    induction l with
    | nil => intro i s h; cases h
    | cons a rest ih =>
      intro i s h
      rw [b64IndexGo] at h
      by_cases hac : a = c
      · rw [if_pos hac] at h
        cases h
        simp
      · rw [if_neg hac] at h
        have := ih (i + 1) s h
        simp at this ⊢
        omega
  have := this b64Alphabet 0 s h
  simpa [b64Alphabet] using this

/-! ## BinaryArrayCodec: `zlib.compress` / `zlib.decompress`

Modelled from the spec: the spec requires the decoded bytes to be
"inflated (zlib-compatible DEFLATE)" and the encoder to "(optionally)
deflate"; the DEFLATE engine itself is the Python `zlib` library, not code
of this repository.  It is modelled here by a zlib-compatible stream built
from *stored* (uncompressed) DEFLATE blocks: a 2-byte zlib header, a
sequence of stored blocks (`BFINAL` flag byte, `LEN`/`NLEN` 16-bit
little-endian, then `LEN` raw bytes, at most 65535 per block), and the
big-endian Adler-32 checksum of the payload. -/

/-- Adler-32 accumulation loop (both sums modulo 65521). -/
def adler32Go : List ℕ → ℕ → ℕ → ℕ × ℕ
  | [], a, b => (a, b)
  | x :: rest, a, b =>
    let a' := (a + x) % 65521
    adler32Go rest a' ((b + a') % 65521)

/-- Adler-32 checksum (initial sums 1 and 0). -/
def adler32 (data : List ℕ) : ℕ :=
  let p := adler32Go data 1 0
  p.2 * 65536 + p.1

/-- A 32-bit value as 4 big-endian bytes. -/
def toBE4 (v : ℕ) : List ℕ :=
  [v / 16777216 % 256, v / 65536 % 256, v / 256 % 256, v % 256]

/-- The stored-block body: blocks of at most 65535 bytes, the last one
flagged final. -/
def deflateStoredBlocks (data : List ℕ) : List ℕ :=
  if data.length ≤ 65535 then
    1 :: data.length % 256 :: data.length / 256 ::
      (65535 - data.length) % 256 :: (65535 - data.length) / 256 :: data
  else
    0 :: 255 :: 255 :: 0 :: 0 ::
      (data.take 65535 ++ deflateStoredBlocks (data.drop 65535))
  termination_by data.length
  decreasing_by simp only [List.length_drop]; omega

/-- Parse stored blocks; returns the payload and the unconsumed tail. -/
def inflateBlocks (stream : List ℕ) : Option (List ℕ × List ℕ) :=
  match stream with
  | f :: l1 :: l2 :: n1 :: n2 :: rest =>
    let len := l1 + 256 * l2
    if n1 + 256 * n2 = 65535 - len ∧ len ≤ rest.length then
      if f = 1 then some (rest.take len, rest.drop len)
      else if f = 0 then
        match inflateBlocks (rest.drop len) with
        | some (dat, tail) => some (rest.take len ++ dat, tail)
        | none => none
      else none
    else none
  | _ => none
  termination_by stream.length
  decreasing_by simp only [List.length_drop, List.length_cons]; omega

/-- `zlib.compress` (stored-block model): header, blocks, Adler-32. -/
def zlibCompress (data : List ℕ) : List ℕ :=
  120 :: 1 :: (deflateStoredBlocks data ++ toBE4 (adler32 data))

/-- `zlib.decompress` (stored-block model): checks the header, inflates,
verifies the Adler-32 trailer consumes the rest exactly. -/
def zlibDecompress (stream : List ℕ) : Option (List ℕ) :=
  match stream with
  | h1 :: h2 :: rest =>
    if h1 = 120 ∧ h2 = 1 then
      match inflateBlocks rest with
      | some (dat, tail) => if tail = toBE4 (adler32 dat) then some dat else none
      | none => none
    else none
  | _ => none

theorem inflateBlocks_deflateStoredBlocks (data tail : List ℕ) :
    inflateBlocks (deflateStoredBlocks data ++ tail) = some (data, tail) := by
  induction data using deflateStoredBlocks.induct with
  | case1 data hlen =>
    rw [deflateStoredBlocks, if_pos hlen]
    simp only [List.cons_append]
    rw [inflateBlocks]
    rw [if_pos ⟨by omega, by
      rw [List.length_append]
      omega⟩]
    rw [if_pos rfl]
    have h1 : data.length % 256 + 256 * (data.length / 256) = data.length := by omega
    rw [h1, List.take_left, List.drop_left]
  | case2 data hlen ih =>
    rw [deflateStoredBlocks, if_neg hlen]
    simp only [List.cons_append, List.append_assoc]
    rw [inflateBlocks]
    have htk : (data.take 65535).length = 65535 := by
      rw [List.length_take]
      omega
    rw [if_pos ⟨by omega, by
      rw [List.length_append, htk]
      omega⟩]
    rw [if_neg (by omega), if_pos rfl]
    have h65 : 255 + 256 * 255 = 65535 := by norm_num
    rw [h65, List.take_left' htk, List.drop_left' htk, ih]
    show some (List.take 65535 data ++ List.drop 65535 data, tail) = some (data, tail)
    rw [List.take_append_drop]

/-- zlib round trip (stored-block model). -/
theorem zlibDecompress_zlibCompress (data : List ℕ) :
    zlibDecompress (zlibCompress data) = some data := by
  rw [zlibCompress, zlibDecompress]
  rw [if_pos ⟨rfl, rfl⟩, inflateBlocks_deflateStoredBlocks]
  show (if toBE4 (adler32 data) = toBE4 (adler32 data) then some data else none) = some data
  rw [if_pos rfl]

theorem adler32Go_lt (data : List ℕ) :
    ∀ a b, a < 65521 → b < 65521 →
      (adler32Go data a b).1 < 65521 ∧ (adler32Go data a b).2 < 65521 := by
  induction data with
  | nil =>
    intro a b ha hb
    exact ⟨ha, hb⟩
  | cons x rest ih =>
    intro a b _ _
    exact ih _ _ (by omega) (by omega)

theorem toBE4_lt (v : ℕ) : ∀ b ∈ toBE4 v, b < 256 := by
  intro b hb
  rw [toBE4] at hb
  simp at hb
  rcases hb with h | h | h | h <;> omega

theorem deflateStoredBlocks_lt (data : List ℕ) (hd : ∀ x ∈ data, x < 256) :
    ∀ b ∈ deflateStoredBlocks data, b < 256 := by
  induction data using deflateStoredBlocks.induct with
  | case1 data hlen =>
    rw [deflateStoredBlocks, if_pos hlen]
    intro b hb
    simp only [List.mem_cons] at hb
    rcases hb with h | h | h | h | h | h
    · omega
    · omega
    · omega
    · omega
    · omega
    · exact hd b h
  | case2 data hlen ih =>
    rw [deflateStoredBlocks, if_neg hlen]
    intro b hb
    simp only [List.mem_cons, List.mem_append] at hb
    rcases hb with h | h | h | h | h | h | h
    · omega
    · omega
    · omega
    · omega
    · omega
    · exact hd b (List.take_subset _ _ h)
    · exact ih (fun x hx => hd x (List.drop_subset _ _ hx)) b h

theorem zlibCompress_lt (data : List ℕ) (hd : ∀ x ∈ data, x < 256) :
    ∀ b ∈ zlibCompress data, b < 256 := by
  intro b hb
  rw [zlibCompress] at hb
  simp only [List.mem_cons, List.mem_append] at hb
  rcases hb with h | h | h | h
  · omega
  · omega
  · exact deflateStoredBlocks_lt data hd b h
  · exact toBE4_lt _ b h

/-! ## `SpectraConverter`: binary array decode / encode

Decode (`_mzml_to_msobject` lines 228–242):

```python
decoded_data = base64.b64decode(binary_data_array.binary)
if compression:
    decoded_data = zlib.decompress(decoded_data)
if precision == 32:
    fmt = 'f' * (len(decoded_data) // 4)
    values = struct.unpack(fmt, decoded_data)
else:
    fmt = 'd' * (len(decoded_data) // 8)
    values = struct.unpack(fmt, decoded_data)
```

Encode (`_msobject_to_mzml` lines 524–526):

```python
mz_binary = struct.pack('d' * len(mz_values), *mz_values)
mz_compressed = zlib.compress(mz_binary)
mz_encoded = base64.b64encode(mz_compressed).decode('ascii')
```
-/

/-- Decode one binary data array; failures are the Python exceptions
(`binascii.Error` is a `ValueError`; `zlib.error`; `struct.error`). -/
def decodeBinaryArray (precision32 compression : Bool) (text : List ℕ) :
    Except PyError (List ℕ) :=
  match b64DecodeGo text with
  | none => .error .valueError
  | some decoded =>
    match (if compression then zlibDecompress decoded else some decoded) with
    | none => .error .zlibError
    | some data => structUnpack (if precision32 then 4 else 8) data

/-- Encode one binary data array: pack → (optionally) deflate → base64.
The repository's writer instantiates this at 64-bit precision with zlib
compression; the (precision, compressed) parametrization is the spec's
Encode, inverted exactly by `decodeBinaryArray`. -/
def encodeBinaryArray (precision32 compression : Bool) (xs : List ℕ) : List ℕ :=
  let packed := packValues (if precision32 then 4 else 8) xs
  b64EncodeGo (if compression then zlibCompress packed else packed)

/-- C5: for every float sequence `xs` (values as bit patterns of the
declared width) and every combination of precision ∈ {32, 64} (modelled by
`precision32`) and compressed ∈ {true, false}, decoding the encoding of
`xs` — pack little-endian → optionally deflate → base64, inverted by
base64-decode → optionally inflate → unpack — returns `xs` to bit
equality. -/
theorem decodeBinaryArray_encodeBinaryArray (precision32 compression : Bool)
    (xs : List ℕ) (hx : ∀ v ∈ xs, v < 2 ^ (if precision32 then 32 else 64)) :
    decodeBinaryArray precision32 compression
      (encodeBinaryArray precision32 compression xs) = .ok xs := by
  have hw : (0 : ℕ) < (if precision32 then 4 else 8) := by
    cases precision32 <;> norm_num
  have hx' : ∀ v ∈ xs, v < 256 ^ (if precision32 then 4 else 8) := by
    intro v hv
    have h := hx v hv
    cases precision32 <;> norm_num at h ⊢ <;> omega
  have hpacked_lt := packValues_lt (if precision32 then 4 else 8) xs
  have hstream_lt : ∀ b ∈ (if compression then
      zlibCompress (packValues (if precision32 then 4 else 8) xs)
    else packValues (if precision32 then 4 else 8) xs), b < 256 := by
    cases compression
    · simpa using hpacked_lt
    · intro b hb
      simp only [if_true] at hb
      exact zlibCompress_lt _ hpacked_lt b hb
  have hb64 := b64DecodeGo_b64EncodeGo _ hstream_lt
  have hinner : (if compression then
      zlibDecompress (if compression then
        zlibCompress (packValues (if precision32 then 4 else 8) xs)
      else packValues (if precision32 then 4 else 8) xs)
    else some (if compression then
      zlibCompress (packValues (if precision32 then 4 else 8) xs)
    else packValues (if precision32 then 4 else 8) xs)) =
      some (packValues (if precision32 then 4 else 8) xs) := by
    cases compression
    · simp
    · simp [zlibDecompress_zlibCompress]
  rw [encodeBinaryArray, decodeBinaryArray, hb64]
  show (match (if compression then
      zlibDecompress (if compression then
        zlibCompress (packValues (if precision32 then 4 else 8) xs)
      else packValues (if precision32 then 4 else 8) xs)
    else some (if compression then
      zlibCompress (packValues (if precision32 then 4 else 8) xs)
    else packValues (if precision32 then 4 else 8) xs)) with
    | none => Except.error PyError.zlibError
    | some data => structUnpack (if precision32 then 4 else 8) data) = .ok xs
  rw [hinner]
  exact structUnpack_packValues _ hw xs hx'

/-- Witness for `decodeBinaryArray_encodeBinaryArray`: three 32-bit
patterns, compressed. -/
theorem decodeBinaryArray_encodeBinaryArray_witness :
    decodeBinaryArray true true (encodeBinaryArray true true [0, 1, 3212836864]) =
      .ok [0, 1, 3212836864] :=
  decodeBinaryArray_encodeBinaryArray true true [0, 1, 3212836864] (by decide)

theorem unpackGo_mul_length (w : ℕ) (hw : 0 < w) :
    ∀ data : List ℕ, w ∣ data.length → (unpackGo w data).length * w = data.length := by
  intro data
  induction data using unpackGo.induct w with
  | case1 data hdata =>
    rcases hdata with h | h
    · omega
    · subst h
      intro _
      simp [unpackGo_nil]
  | case2 data hdata ih =>
    intro hdvd
    have hne : data ≠ [] := by tauto
    have hlen : 0 < data.length := List.length_pos.mpr hne
    have hwle : w ≤ data.length := Nat.le_of_dvd hlen hdvd
    rw [unpackGo, dif_neg hdata, List.length_cons]
    have hdvd' : w ∣ (data.drop w).length := by
      rw [List.length_drop]
      exact (Nat.dvd_sub' hdvd dvd_rfl)
    have hrec := ih hdvd'
    rw [List.length_drop] at hrec
    have hmul : ((unpackGo w (data.drop w)).length + 1) * w =
        (unpackGo w (data.drop w)).length * w + w := by ring
    omega

/-- C7: decoding fails with `struct.error` whenever the byte length after
base64 decoding (and inflating, when compressed) is not a multiple of the
element width (4 bytes for 32-bit, 8 for 64-bit), and with `zlib.error`
whenever inflation fails; on success the value count times the width is
exactly the byte length — no trailing bytes are silently dropped. -/
theorem decodeBinaryArray_malformed (precision32 : Bool) (text decoded : List ℕ)
    (hdec : b64DecodeGo text = some decoded) :
    (decoded.length % (if precision32 then 4 else 8) ≠ 0 →
      decodeBinaryArray precision32 false text = .error .structError) ∧
    (zlibDecompress decoded = none →
      decodeBinaryArray precision32 true text = .error .zlibError) ∧
    (∀ data, zlibDecompress decoded = some data →
      data.length % (if precision32 then 4 else 8) ≠ 0 →
      decodeBinaryArray precision32 true text = .error .structError) ∧
    (∀ vals, decodeBinaryArray precision32 false text = .ok vals →
      decoded.length % (if precision32 then 4 else 8) = 0 ∧
      vals.length * (if precision32 then 4 else 8) = decoded.length) := by
  have hw : (0 : ℕ) < (if precision32 then 4 else 8) := by
    cases precision32 <;> norm_num
  have hfalse : decodeBinaryArray precision32 false text =
      structUnpack (if precision32 then 4 else 8) decoded := by
    rw [decodeBinaryArray, hdec]
    rfl
  refine ⟨?_, ?_, ?_, ?_⟩
  · intro hmod
    rw [hfalse, structUnpack, if_neg]
    rintro ⟨hdiv, -⟩
    exact hmod (Nat.mod_eq_zero_of_dvd (Dvd.intro_left _ hdiv))
  · intro hz
    rw [decodeBinaryArray, hdec]
    show (match (if true = true then zlibDecompress decoded else some decoded) with
      | none => Except.error PyError.zlibError
      | some data => structUnpack (if precision32 then 4 else 8) data) = _
    rw [if_pos rfl, hz]
  · intro data hz hmod
    rw [decodeBinaryArray, hdec]
    show (match (if true = true then zlibDecompress decoded else some decoded) with
      | none => Except.error PyError.zlibError
      | some data => structUnpack (if precision32 then 4 else 8) data) = _
    rw [if_pos rfl, hz]
    show structUnpack (if precision32 then 4 else 8) data = _
    rw [structUnpack, if_neg]
    rintro ⟨hdiv, -⟩
    exact hmod (Nat.mod_eq_zero_of_dvd (Dvd.intro_left _ hdiv))
  · intro vals hok
    rw [hfalse, structUnpack] at hok
    by_cases hcond : decoded.length / (if precision32 then 4 else 8) *
        (if precision32 then 4 else 8) = decoded.length ∧
        0 < (if precision32 then 4 else 8)
    · rw [if_pos hcond] at hok
      have hvals : vals = unpackGo (if precision32 then 4 else 8) decoded :=
        (Except.ok.inj hok).symm
      have hdvd : (if precision32 then 4 else 8) ∣ decoded.length :=
        Dvd.intro_left _ hcond.1
      refine ⟨Nat.mod_eq_zero_of_dvd hdvd, ?_⟩
      rw [hvals]
      exact unpackGo_mul_length _ hw decoded hdvd
    · rw [if_neg hcond] at hok
      cases hok

/-- Witness for `decodeBinaryArray_malformed`: a 5-byte payload (not a
multiple of 4), whose bytes also do not form a zlib stream. -/
theorem decodeBinaryArray_malformed_witness :
    ((([0, 0, 0, 0, 0] : List ℕ).length % (if true then 4 else 8) ≠ 0 →
      decodeBinaryArray true false (b64EncodeGo [0, 0, 0, 0, 0]) = .error .structError) ∧
    (zlibDecompress [0, 0, 0, 0, 0] = none →
      decodeBinaryArray true true (b64EncodeGo [0, 0, 0, 0, 0]) = .error .zlibError) ∧
    (∀ data, zlibDecompress [0, 0, 0, 0, 0] = some data →
      data.length % (if true then 4 else 8) ≠ 0 →
      decodeBinaryArray true true (b64EncodeGo [0, 0, 0, 0, 0]) = .error .structError) ∧
    (∀ vals, decodeBinaryArray true false (b64EncodeGo [0, 0, 0, 0, 0]) = .ok vals →
      ([0, 0, 0, 0, 0] : List ℕ).length % (if true then 4 else 8) = 0 ∧
      vals.length * (if true then 4 else 8) = ([0, 0, 0, 0, 0] : List ℕ).length)) :=
  decodeBinaryArray_malformed true (b64EncodeGo [0, 0, 0, 0, 0]) [0, 0, 0, 0, 0]
    (by decide)

/-! ## Peak installation: `_mzml_to_msobject` lines 249–253

```python
if mz_array and intensity_array:
    ms_object.clear_peaks()
    for mz, intensity in zip(mz_array, intensity_array):
        ms_object.add_peak(mz, intensity)
```

with `MSObject.add_peak` a plain `self._peaks.append((mz, intensity))` and
`clear_peaks` setting `self._peaks = []`.  The Python truthiness test skips
installation when either array is `None` or empty, leaving the fresh
`MSObject`'s empty peak list. -/

/-- The `add_peak` loop: append each zipped pair in order. -/
def addPeaksLoop (peaks : List (ℚ × ℚ)) : List (ℚ × ℚ) → List (ℚ × ℚ)
  | [] => peaks
  | p :: rest => addPeaksLoop (peaks ++ [p]) rest

/-- The stored peak list after the lines above run on the decoded arrays. -/
def installPeaks (mzArray intensityArray : List ℚ) : List (ℚ × ℚ) :=
  if mzArray ≠ [] ∧ intensityArray ≠ [] then
    addPeaksLoop [] (mzArray.zip intensityArray)
  else []

theorem addPeaksLoop_eq (l : List (ℚ × ℚ)) :
    ∀ peaks, addPeaksLoop peaks l = peaks ++ l := by
  induction l with
  | nil => intro peaks; simp [addPeaksLoop]
  | cons p rest ih =>
    intro peaks
    rw [addPeaksLoop, ih, List.append_assoc]
    rfl

/-- C1 counterexample: a spectrum whose decoded intensity array is
`[-1, 0, 5, 10]` stores all 4 peaks — not 2 — including the nonpositive
ones (no intensity filter, no sorting is applied at parse time). -/
theorem installPeaks_counterexample :
    (installPeaks [100, 200, 300, 400] [-1, 0, 5, 10]).length = 4 ∧
    (installPeaks [100, 200, 300, 400] [-1, 0, 5, 10]).length ≠ 2 ∧
    ((100 : ℚ), (-1 : ℚ)) ∈ installPeaks [100, 200, 300, 400] [-1, 0, 5, 10] ∧
    ¬ (∀ p ∈ installPeaks [100, 200, 300, 400] [-1, 0, 5, 10], 0 < p.2) := by
  have h : installPeaks [100, 200, 300, 400] [-1, 0, 5, 10] =
      [(100, -1), (200, 0), (300, 5), (400, 10)] := by
    rw [installPeaks, if_pos ⟨by simp, by simp⟩, addPeaksLoop_eq, List.nil_append]
    rfl
  refine ⟨by rw [h]; rfl, by rw [h]; simp, by rw [h]; simp, ?_⟩
  intro hall
  have := hall (100, -1) (by rw [h]; simp)
  norm_num at this

/-- C1 (amended): after a load completes, each stored spectrum's peak list
is exactly `zip(mz_array, intensity_array)` of its decoded arrays, in
decoded order — no intensity > 0 filter and no sorting by m/z is applied at
parse time; in particular the example spectrum stores 4 peaks. -/
theorem installPeaks_spec (mzArray intensityArray : List ℚ)
    (h1 : mzArray ≠ []) (h2 : intensityArray ≠ []) :
    installPeaks mzArray intensityArray = mzArray.zip intensityArray := by
  rw [installPeaks, if_pos ⟨h1, h2⟩, addPeaksLoop_eq, List.nil_append]

/-- Witness for `installPeaks_spec`. -/
theorem installPeaks_spec_witness :
    installPeaks [100, 200, 300, 400] [-1, 0, 5, 10] =
      List.zip [100, 200, 300, 400] [-1, 0, 5, 10] :=
  installPeaks_spec [100, 200, 300, 400] [-1, 0, 5, 10] (by simp) (by simp)

/-! ## `MZMLReader.read` and the offset index (`_get_offset_list`)

The XML tree produced by `lxml.etree` is modelled structurally: tag,
attributes, an optional integer text body (the decimal byte offsets are the
only text bodies this layer reads; a missing body makes Python's `int()`
raise), and children. -/

/-- A minimal XML element. -/
inductive Xml where
  | node (tag : String) (attrs : List (String × String)) (text : Option ℤ)
      (children : List Xml)

def Xml.tag : Xml → String
  | .node t _ _ _ => t

def Xml.attrs : Xml → List (String × String)
  | .node _ a _ _ => a

def Xml.text : Xml → Option ℤ
  | .node _ _ tx _ => tx

def Xml.children : Xml → List Xml
  | .node _ _ _ c => c

/-- Python `child.tag.endswith(pat)` (namespace-insensitive tag test). -/
def tagEndsWith (x : Xml) (pat : String) : Bool :=
  pat.data.isSuffixOf x.tag.data

/-- The `for child in …: if child.tag.endswith(pat): …; break` pattern:
first matching child. -/
def findChildEndsWith (x : Xml) (pat : String) : Option Xml :=
  x.children.find? (fun c => tagEndsWith c pat)

/-- `element.get(key)`. -/
def Xml.attr (x : Xml) (key : String) : Option String :=
  x.attrs.lookup key

/-- The `run` holder of `MZMLObject`; only the spectra list is read by the
loader-level claims, so a parsed `Spectrum` is retained as its raw
element. -/
structure RunM where
  spectraList : List Xml

/-- `MZMLObject` (run holder only). -/
structure MZMLObjectM where
  run : Option RunM

/-- `Run.__init__`: iterate the children; when `parse_spectra`, every
`spectrumList` child contributes its `spectrum` children in order
(`_parse_spectra_list`). -/
def mkRun (e : Xml) (parseSpectra : Bool) : RunM :=
  { spectraList := e.children.flatMap (fun c =>
      if tagEndsWith c "spectrumList" && parseSpectra then
        c.children.filter (fun s => tagEndsWith s "spectrum")
      else []) }

/-- `MZMLObject.__init__`: the last `run` child wins (plain assignment in
the loop). -/
def mkMZMLObject (e : Xml) (parseSpectra : Bool) : MZMLObjectM :=
  { run := e.children.foldl
      (fun acc c => if tagEndsWith c "run" then some (mkRun c parseSpectra) else acc)
      none }

/-- `MZMLReader._get_offset_list`.  `fileSize` stands for
`os.path.getsize(root.base)`.  Missing `indexList` or missing `spectrum`
index raise `ValueError`; a missing text body under an `offset` element
makes `int(None)` raise `TypeError`. -/
def getOffsetList (root : Xml) (fileSize : ℤ) :
    Except PyError (List (Option String × ℤ) × ℤ) :=
  match findChildEndsWith root "indexList" with
  | none => .error .valueError
  | some indexListElem =>
    match indexListElem.children.find? (fun c =>
        tagEndsWith c "index" && c.attr "name" == some "spectrum") with
    | none => .error .valueError
    | some spectrumIndexElem =>
      match (spectrumIndexElem.children.filter (fun c => tagEndsWith c "offset")).mapM
          (fun oe => oe.text.map (fun v => (oe.attr "idRef", v))) with
      | none => .error .typeError
      | some offsets =>
        match indexListElem.children.find? (fun c =>
            tagEndsWith c "index" && c.attr "name" == some "chromatogram") with
        | none => .ok (offsets, fileSize)
        | some chromElem =>
          match chromElem.children.find? (fun c => tagEndsWith c "offset") with
          | none => .ok (offsets, fileSize)
          | some oe =>
            match oe.text with
            | none => .error .typeError
            | some v => .ok (offsets, v + 10000)

/-- `MZMLReader.read`.  `chunkParse` abstracts the byte-level
`_parse_spectra_chunk` mapping of the indexed parallel path (modelled in
detail for the chunking claims); it receives the offset list and the end
offset.  If the `indexedmzML` wrapper has no `mzML` child, the unbound
`mzml_root` raises `NameError` at first use.  A root that is *not* an
`indexedmzML` wrapper is handed to `MZMLObject` directly — a full linear
parse of the spectrum elements. -/
def readMzml (root : Xml) (parseSpectra parallel : Bool) (fileSize : ℤ)
    (chunkParse : List (Option String × ℤ) → ℤ → List Xml) :
    Except PyError MZMLObjectM :=
  if tagEndsWith root "indexedmzML" then
    match findChildEndsWith root "mzML" with
    | none => .error .nameError
    | some mzmlRoot =>
      if parseSpectra = false then .ok (mkMZMLObject mzmlRoot false)
      else if parallel then
        match getOffsetList root fileSize with
        | .error e => .error e
        | .ok (offsets, endOff) =>
          let obj := mkMZMLObject mzmlRoot false
          match obj.run with
          | some r =>
            .ok { obj with run := some { r with spectraList := chunkParse offsets endOff } }
          | none => .ok obj
      else .ok (mkMZMLObject mzmlRoot true)
  else .ok (mkMZMLObject root parseSpectra)

/-- C6 counterexample: a plain (non-`indexedmzML`) root lacking any index
section loads *successfully* through a full linear scan — `Load` neither
fails with `MissingIndexError` nor refuses the linear fallback.  The two
`spectrum` children of the `spectrumList` are both parsed and stored. -/
theorem readMzml_linear_fallback_counterexample :
    readMzml
      (.node "mzML" [] none
        [.node "run" [] none
          [.node "spectrumList" [] none
            [.node "spectrum" [("id", "s1")] none [],
             .node "spectrum" [("id", "s2")] none []]]])
      true true 0 (fun _ _ => []) =
      .ok { run := some { spectraList :=
        [.node "spectrum" [("id", "s1")] none [],
         .node "spectrum" [("id", "s2")] none []] } } := by
  rfl

/-- C6 (amended): only an `indexedmzML`-wrapped input read in parallel with
spectrum parsing fails when its trailer lacks an `indexList`: the reader
raises `ValueError` (the spec's `MissingIndexError`) before touching any
spectrum bytes.  An input whose root is not an `indexedmzML` wrapper falls
back to a full linear parse of the spectrum elements and loads without
error (see the counterexample). -/
theorem readMzml_missing_index_spec (root : Xml) (fileSize : ℤ)
    (chunkParse : List (Option String × ℤ) → ℤ → List Xml)
    (hidx : tagEndsWith root "indexedmzML" = true)
    (hmz : (findChildEndsWith root "mzML").isSome)
    (hnoIdx : findChildEndsWith root "indexList" = none) :
    readMzml root true true fileSize chunkParse = .error .valueError := by
  obtain ⟨mzmlRoot, hmzml⟩ := Option.isSome_iff_exists.mp hmz
  rw [readMzml, if_pos hidx, hmzml]
  show (if (true = false) then _ else _) = _
  rw [if_neg (by simp), if_pos rfl]
  have hoff : getOffsetList root fileSize = .error .valueError := by
    rw [getOffsetList, hnoIdx]
  rw [hoff]

/-- Witness for `readMzml_missing_index_spec`: an `indexedmzML` wrapper
with an `mzML` child but no `indexList` trailer. -/
theorem readMzml_missing_index_spec_witness :
    readMzml
      (.node "indexedmzML" [] none
        [.node "mzML" [] none
          [.node "run" [] none
            [.node "spectrumList" [] none [.node "spectrum" [] none []]]]])
      true true 0 (fun _ _ => []) = .error .valueError :=
  readMzml_missing_index_spec _ 0 (fun _ _ => []) (by rfl) (by rfl) (by rfl)

/-! ## Parallel chunked spectrum parsing:
`_parse_spectra_parallel` (indexed path) and `_parse_spectra_chunk`

```python
chunk_size = max(1, len(index_list) // num_processes)
chunks = [index_list[i:i + chunk_size] for i in range(0, len(index_list), chunk_size)]
results = list(executor.map(lambda chunk: self._parse_spectra_chunk(...), chunks))
all_spectra = []
for result in results: all_spectra.extend(result)
```

and per chunk, for entry `i`:

```python
read_length = (next_offset - offset) if i < len(chunk)-1 else (end_offset - offset)
data = file.read(read_length)
spectrum_start = data.find(b'<spectrum')
spectrum_end = data.find(b'</spectrum>') + len(b'</spectrum>')
if spectrum_start >= 0 and spectrum_end > 0:
    try: parse and append
    except: skip
```

`executor.map` preserves argument order and the results are extended in
that order, so the concatenation is in original chunk order by
construction; the content of the file is a byte list and `etree.fromstring`
+ `Spectrum(...)` is an abstract `parse` parameter (its `try/except` skip
is the `Option`). -/

/-- Python `bytes.find` (first index of `pat`, `-1` if absent). -/
def bytesFindGo (pat : List ℕ) : List ℕ → ℕ → ℤ
  | [], i => if pat.isPrefixOf ([] : List ℕ) then (i : ℤ) else -1
  | a :: rest, i =>
    if pat.isPrefixOf (a :: rest) then (i : ℤ) else bytesFindGo pat rest (i + 1)

def bytesFind (hay pat : List ℕ) : ℤ := bytesFindGo pat hay 0

/-- Python slice `data[a:b]` for the nonnegative indices used here. -/
def pySlice (l : List ℕ) (a b : ℤ) : List ℕ :=
  (l.take b.toNat).drop a.toNat

/-- The bytes of `b'<spectrum'`. -/
def spectrumOpenTag : List ℕ := [60, 115, 112, 101, 99, 116, 114, 117, 109]

/-- The bytes of `b'</spectrum>'`. -/
def spectrumCloseTag : List ℕ := [60, 47, 115, 112, 101, 99, 116, 114, 117, 109, 62]

/-- Extract and parse the spectrum element from one entry's read window. -/
def extractSpectrum {α : Type} (parse : List ℕ → Option α) (data : List ℕ) : Option α :=
  let s := bytesFind data spectrumOpenTag
  let e := bytesFind data spectrumCloseTag + 11
  if 0 ≤ s ∧ 0 < e then parse (pySlice data s e) else none

/-- `_parse_spectra_chunk`: entry `i` reads up to the next entry's offset,
the chunk's last entry up to `end_offset`. -/
def parseSpectraChunk {α : Type} (parse : List ℕ → Option α) (file : List ℕ)
    (endOffset : ℤ) : List (Option String × ℤ) → List α
  | [] => []
  | [e] =>
    match extractSpectrum parse (pySlice file e.2 endOffset) with
    | some sp => [sp]
    | none => []
  | e :: e' :: rest =>
    match extractSpectrum parse (pySlice file e.2 e'.2) with
    | some sp => sp :: parseSpectraChunk parse file endOffset (e' :: rest)
    | none => parseSpectraChunk parse file endOffset (e' :: rest)

/-- `[l[i:i+size] for i in range(0, len(l), size)]` (used with `size ≥ 1`). -/
def chunkList {α : Type} (size : ℕ) : List α → List (List α)
  | [] => []
  | a :: rest => ((a :: rest).take size) :: chunkList size (rest.drop (size - 1))
  termination_by l => l.length
  decreasing_by simp only [List.length_drop, List.length_cons]; omega

/-- The indexed parallel load: order-preserving chunk map and ordered
concatenation. -/
def parseSpectraParallel {α : Type} (parse : List ℕ → Option α) (file : List ℕ)
    (endOffset : ℤ) (offsets : List (Option String × ℤ)) (numProcesses : ℕ) : List α :=
  (chunkList (max 1 (offsets.length / numProcesses)) offsets).flatMap
    (parseSpectraChunk parse file endOffset)

/-- The per-entry boundary condition: reading an entry's window up to the
next entry's offset extracts the same record as reading up to the end
offset (the record's `<spectrum>…</spectrum>` lies inside its own
region — the well-formedness of the offset index). -/
def BoundaryAgrees {α : Type} (parse : List ℕ → Option α) (file : List ℕ)
    (endOffset : ℤ) (a b : Option String × ℤ) : Prop :=
  extractSpectrum parse (pySlice file a.2 b.2) =
    extractSpectrum parse (pySlice file a.2 endOffset)

theorem parseSpectraChunk_eq_filterMap {α : Type} (parse : List ℕ → Option α)
    (file : List ℕ) (endOffset : ℤ) :
    ∀ c : List (Option String × ℤ),
      List.Chain' (BoundaryAgrees parse file endOffset) c →
      parseSpectraChunk parse file endOffset c =
        c.filterMap (fun e => extractSpectrum parse (pySlice file e.2 endOffset)) := by
  intro c
  induction c with
  | nil => intro _; rfl
  | cons e rest ih =>
    intro hchain
    cases rest with
    | nil =>
      rw [parseSpectraChunk, List.filterMap_cons]
      cases extractSpectrum parse (pySlice file e.2 endOffset) <;> rfl
    | cons e' rest' =>
      obtain ⟨hR, hchain'⟩ := List.chain'_cons.mp hchain
      rw [parseSpectraChunk, hR, ih hchain']
      simp only [List.filterMap_cons]
      cases extractSpectrum parse (pySlice file e.2 endOffset) <;> rfl

theorem chunkList_flatten (size : ℕ) (hs : 0 < size) {α : Type} :
    ∀ l : List α, (chunkList size l).flatten = l := by
  obtain ⟨s, rfl⟩ : ∃ s, size = s + 1 := ⟨size - 1, by omega⟩
  intro l
  induction l using chunkList.induct (s + 1) with
  | case1 => simp [chunkList]
  | case2 a rest ih =>
    rw [chunkList, List.flatten_cons]
    simp only [Nat.add_sub_cancel] at ih ⊢
    rw [ih, List.take_succ_cons, List.cons_append, List.take_append_drop]

theorem chunkList_chain {α : Type} (R : α → α → Prop) (size : ℕ) :
    ∀ l : List α, List.Chain' R l →
      ∀ c ∈ chunkList size l, List.Chain' R c := by
  intro l
  induction l using chunkList.induct size with
  | case1 =>
    intro _ c hc
    rw [chunkList] at hc
    cases hc
  | case2 a rest ih =>
    intro hchain c hc
    rw [chunkList] at hc
    rcases List.mem_cons.mp hc with h | h
    · subst h
      exact List.Chain'.take hchain size
    · exact ih (List.Chain'.drop hchain.tail (size - 1)) c h

theorem filterMap_flatten {α β : Type} (f : α → Option β) :
    ∀ L : List (List α), L.flatMap (List.filterMap f) = (L.flatten).filterMap f := by
  intro L
  induction L with
  | nil => rfl
  | cons c L ih =>
    rw [List.flatMap_cons, List.flatten_cons, List.filterMap_append, ih]

/-- C9: for a fixed file and offset index whose records each lie inside
their own byte region (so that a chunk-final read to `end_offset` extracts
the same record as an interior read to the next offset), the parallel load
yields, for *every* worker count — in particular 1, 2, 4 and 8 — the same
record list: the per-chunk results of the contiguous order-preserving
partition, concatenated in original chunk order, equal the sequential
entry-by-entry parse.  Ordering and contents are therefore independent of
the worker count, and the downstream ms1/ms2 split and retention-time sort
are deterministic functions of this list. -/
theorem parseSpectraParallel_deterministic {α : Type} (parse : List ℕ → Option α)
    (file : List ℕ) (endOffset : ℤ) (offsets : List (Option String × ℤ))
    (hb : List.Chain' (BoundaryAgrees parse file endOffset) offsets) :
    ∀ numProcesses,
      parseSpectraParallel parse file endOffset offsets numProcesses =
        offsets.filterMap (fun e => extractSpectrum parse (pySlice file e.2 endOffset)) := by
  intro numProcesses
  rw [parseSpectraParallel]
  have hchunks := chunkList_chain (BoundaryAgrees parse file endOffset)
    (max 1 (offsets.length / numProcesses)) offsets hb
  have hmap : (chunkList (max 1 (offsets.length / numProcesses)) offsets).flatMap
      (parseSpectraChunk parse file endOffset) =
      (chunkList (max 1 (offsets.length / numProcesses)) offsets).flatMap
      (List.filterMap (fun e => extractSpectrum parse (pySlice file e.2 endOffset))) := by
    rw [List.flatMap, List.flatMap]
    refine congrArg List.flatten ?_
    refine List.map_congr_left (fun c hc => ?_)
    exact parseSpectraChunk_eq_filterMap parse file endOffset c (hchunks c hc)
  rw [hmap, filterMap_flatten, chunkList_flatten _ (by omega)]

/-- Witness for `parseSpectraParallel_deterministic`: a 43-byte file with
two records (`<spectrum></spectrum>` at offset 0, `<spectrum>a</spectrum>`
at offset 21), parsed with 2 workers and with 1 worker, both equal to the
sequential parse. -/
theorem parseSpectraParallel_deterministic_witness :
    parseSpectraParallel (fun bs => some bs)
      ([60, 115, 112, 101, 99, 116, 114, 117, 109, 62,
        60, 47, 115, 112, 101, 99, 116, 114, 117, 109, 62,
        60, 115, 112, 101, 99, 116, 114, 117, 109, 62, 97,
        60, 47, 115, 112, 101, 99, 116, 114, 117, 109, 62])
      43 [(none, 0), (none, 21)] 2 =
      ([(none, 0), (none, 21)] : List (Option String × ℤ)).filterMap
        (fun e => extractSpectrum (fun bs => some bs)
        (pySlice [60, 115, 112, 101, 99, 116, 114, 117, 109, 62,
          60, 47, 115, 112, 101, 99, 116, 114, 117, 109, 62,
          60, 115, 112, 101, 99, 116, 114, 117, 109, 62, 97,
          60, 47, 115, 112, 101, 99, 116, 114, 117, 109, 62] e.2 43)) :=
  parseSpectraParallel_deterministic (fun bs => some bs) _ 43 [(none, 0), (none, 21)]
    (by
      refine List.chain'_cons.mpr ⟨?_, List.chain'_singleton _⟩
      show extractSpectrum _ _ = extractSpectrum _ _
      rfl)
    2

end OpenMSUtils
